import Mathlib

/-!
# Verification of `ultimatepython/classes/iterator_class.py`

This file gives a shallow embedding of the iterator-class module: the
`Employee` record, the `EmployeeIterator` cursor class, and the
`employee_generator` generator function, together with proofs of the
behavioural properties of the traversal engine.

Modelling choices:

* A Python object heap is an arena `Graph : Nat → Employee`; a `Nat` is an
  object reference, and `direct_reports` stores references.  Cyclic object
  graphs are representable this way.
* A Python `set` of names is a `List String`; the code only ever inserts a
  name after checking it is absent, so cons preserves set semantics and
  membership is the only observation used.
* `list.pop()` removes the LAST element and `list.append` adds at the end,
  so the pending list is kept in Python order: pop = `getLast?`/`dropLast`,
  pushing all reports = `++ direct_reports`.
* `__next__` can mutate state and then raise (`pop` happens before the
  cycle check), so a step returns a pair: the outcome and the new state.
* Draining an iterator/generator is modelled with explicit fuel, since an
  arena can describe infinite graphs; `Outcome.outOfFuel` marks exhausted
  fuel, `Outcome.finished` a `StopIteration`, and `Outcome.failed` a raised
  exception.
-/
/-- Python exception classes relevant to this module.  `IterationError` is
declared in the source as `class IterationError(RuntimeError)`; the rest of
the chain is the standard Python builtin hierarchy. -/
inductive ExcClass where
  | iterationError
  | runtimeError
  | exception
  | baseException
  deriving DecidableEq, Repr

/-- Immediate superclass, from `class IterationError(RuntimeError)` and the
builtin hierarchy `RuntimeError < Exception < BaseException`. -/
def ExcClass.parent : ExcClass → Option ExcClass
  | .iterationError => some .runtimeError
  | .runtimeError => some .exception
  | .exception => some .baseException
  | .baseException => none

/-- Walk at most `fuel` superclass links asking whether `handler` is an
ancestor (or equal) of `raised`. -/
def catchesAux : Nat → ExcClass → ExcClass → Bool
  | 0, _, _ => false
  | fuel + 1, handler, raised =>
    handler = raised ||
      match raised.parent with
      | some p => catchesAux fuel handler p
      | none => false

/-- `except handler:` catches an exception of class `raised` iff `raised`
is `handler` or a subclass of it.  The hierarchy has depth 4. -/
def catches (handler raised : ExcClass) : Bool :=
  catchesAux 4 handler raised

/-- The `Employee` record: a name, a title and an ordered list of
references to direct reports. -/
structure Employee where
  name : String
  title : String
  direct_reports : List Nat
  deriving DecidableEq, Repr

/-- An object heap: every reference resolves to an `Employee` record. -/
abbrev Graph := Nat → Employee

/-- Possible outcomes of one `__next__` call / one generator resumption. -/
inductive NextOut where
  | stopIteration
  | raised (cls : ExcClass) (msg : String)
  | yielded (employee : Nat)
  deriving DecidableEq, Repr

/-- The state held by an `EmployeeIterator` instance: the pending stack
`employees_to_visit` (Python list, top at the end) and the visited-name
set `employees_visited`. -/
structure EmployeeIterator where
  employees_to_visit : List Nat
  employees_visited : List String
  deriving DecidableEq, Repr

/-- `EmployeeIterator.__init__`: seed the stack with the given employee and
start with an empty visited set. -/
def EmployeeIterator.init (employee : Nat) : EmployeeIterator :=
  ⟨[employee], []⟩

/-- `EmployeeIterator.__next__`.  Raises `StopIteration` when the pending
list is empty; otherwise pops the last pending employee, raises
`IterationError("Cyclic loop detected")` if its name was already visited
(the pop has already happened), and otherwise records the name, appends all
direct reports, and returns the employee. -/
def EmployeeIterator.next (g : Graph) (self : EmployeeIterator) :
    NextOut × EmployeeIterator :=
  match self.employees_to_visit.getLast? with
  | none => (.stopIteration, self)
  | some employee =>
    let rest := self.employees_to_visit.dropLast
    if (g employee).name ∈ self.employees_visited then
      (.raised .iterationError "Cyclic loop detected",
        { self with employees_to_visit := rest })
    else
      (.yielded employee,
        ⟨rest ++ (g employee).direct_reports,
         (g employee).name :: self.employees_visited⟩)

/-- The suspended state of an `employee_generator` invocation: the local
variables `to_visit` and `visited`. -/
structure GenState where
  to_visit : List Nat
  visited : List String
  deriving DecidableEq, Repr

/-- Calling `employee_generator(top_employee)` runs no body code: it only
creates the suspended generator whose locals will be initialised to
`to_visit = [top_employee]`, `visited = set()`.  Note it does not inspect
the graph at all. -/
def employee_generator (top_employee : Nat) : GenState :=
  ⟨[top_employee], []⟩

/-- One resumption of the generator body: execute the `while` loop until
the next `yield` (which ends one loop iteration), the loop exit
(`StopIteration`), or a raise. -/
def GenState.next (g : Graph) (s : GenState) : NextOut × GenState :=
  match s.to_visit.getLast? with
  | none => (.stopIteration, s)
  | some employee =>
    let rest := s.to_visit.dropLast
    if (g employee).name ∈ s.visited then
      (.raised .iterationError "Cyclic loop detected",
        { s with to_visit := rest })
    else
      (.yielded employee,
        ⟨rest ++ (g employee).direct_reports,
         (g employee).name :: s.visited⟩)

/-- How a drain loop ended. -/
inductive Outcome where
  | finished
  | failed (cls : ExcClass) (msg : String)
  | outOfFuel
  deriving DecidableEq, Repr

/-- Drive an `EmployeeIterator` with repeated `__next__` calls, collecting
the yielded references, for at most `fuel` calls. -/
def iterDrain (g : Graph) (fuel : Nat) (s : EmployeeIterator) :
    List Nat × Outcome :=
  match fuel with
  | 0 => ([], .outOfFuel)
  | fuel' + 1 =>
    let r := EmployeeIterator.next g s
    match r.1 with
    | .stopIteration => ([], .finished)
    | .raised c m => ([], .failed c m)
    | .yielded e =>
      let rest := iterDrain g fuel' r.2
      (e :: rest.1, rest.2)

/-- Drive an `employee_generator` instance to exhaustion, collecting the
yielded references, for at most `fuel` resumptions. -/
def genDrain (g : Graph) (fuel : Nat) (s : GenState) :
    List Nat × Outcome :=
  match fuel with
  | 0 => ([], .outOfFuel)
  | fuel' + 1 =>
    let r := GenState.next g s
    match r.1 with
    | .stopIteration => ([], .finished)
    | .raised c m => ([], .failed c m)
    | .yielded e =>
      let rest := genDrain g fuel' r.2
      (e :: rest.1, rest.2)

/-- The graph built in `main()`: a manager with two direct reports. -/
def gMain : Graph := fun i =>
  match i with
  | 0 => ⟨"Max Doe", "Engineering Manager", [1, 2]⟩
  | 1 => ⟨"John Doe", "Software Engineer", []⟩
  | _ => ⟨"Jane Doe", "Software Engineer", []⟩

/-- The self-loop graph built in `main()`: the hacker reports to itself. -/
def gHacker : Graph := fun _ => ⟨"Unknown", "Hacker", [0]⟩

/-! ## Concrete heaps used as test inputs and counterexamples -/
/-- Diamond sharing: `R`'s two reports `A` and `B` share the single
report `C`.  Acyclic, four reachable nodes. -/
def gDiamond : Graph := fun i =>
  match i with
  | 0 => ⟨"R", "Boss", [1, 2]⟩
  | 1 => ⟨"A", "Eng", [3]⟩
  | 2 => ⟨"B", "Eng", [3]⟩
  | _ => ⟨"C", "Eng", []⟩

/-- Two distinct childless report objects that share one name. -/
def gDupName : Graph := fun i =>
  match i with
  | 0 => ⟨"R", "Boss", [1, 2]⟩
  | 1 => ⟨"A", "Eng", []⟩
  | _ => ⟨"A", "Eng", []⟩

/-- A self-looping node whose children list also has a later sibling:
`X`'s reports are `[X, Y]`. -/
def gXY : Graph := fun i =>
  match i with
  | 0 => ⟨"X", "Boss", [0, 1]⟩
  | _ => ⟨"Y", "Eng", []⟩

/-- A two-node cycle whose two distinct objects share one name. -/
def gNN : Graph := fun i =>
  match i with
  | 0 => ⟨"N", "Boss", [1]⟩
  | _ => ⟨"N", "Eng", [0]⟩

/-- A two-node cycle with distinct names: `R → C → R`. -/
def gTwoCycle : Graph := fun i =>
  match i with
  | 0 => ⟨"R", "Boss", [1]⟩
  | _ => ⟨"C", "Eng", [0]⟩

/-- Root `R` reports `[A, R]`: the traversal fails on the second pull and
still has `A` pending afterwards. -/
def gResume : Graph := fun i =>
  match i with
  | 0 => ⟨"R", "Boss", [1, 0]⟩
  | _ => ⟨"A", "Eng", []⟩

/-! ## Finite unshared acyclic graphs, described by trees

An `ETree` describes the shape of the part of the heap reachable from a
root when every reachable node is referenced along exactly one path: the
reachable object graph is a tree.  `decodes g i t` checks that reference
`i` in heap `g` carries the names and report structure of `t`. -/
inductive ETree where
  | node (name : String) (children : List ETree)

mutual

def ETree.size : ETree → Nat
  | .node _ cs => 1 + sizeF cs

def sizeF : List ETree → Nat
  | [] => 0
  | t :: ts => ETree.size t + sizeF ts

end

mutual

def ETree.names : ETree → List String
  | .node n cs => n :: namesF cs

def namesF : List ETree → List String
  | [] => []
  | t :: ts => ETree.names t ++ namesF ts

end

mutual

def decodes (g : Graph) : Nat → ETree → Bool
  | i, .node n cs => (g i).name == n && decodesF g (g i).direct_reports cs

def decodesF (g : Graph) : List Nat → List ETree → Bool
  | [], [] => true
  | i :: is, t :: ts => decodes g i t && decodesF g is ts
  | _, _ => false

end

/-- The tree shape of `gMain` reachable from reference 0. -/
def tMain : ETree :=
  .node "Max Doe" [.node "John Doe" [], .node "Jane Doe" []]

/-! ## Interleaved execution of two cursors

`runSchedule` drives two cursor states under an arbitrary interleaving: a
`true` entry advances the first cursor, a `false` entry the second; the
outcomes seen by each cursor are collected separately.  `runAlone` drives
one cursor for a given number of `__next__` calls. -/
def runSchedule (g : Graph) :
    List Bool → EmployeeIterator × EmployeeIterator →
      List NextOut × List NextOut
  | [], _ => ([], [])
  | pick :: rest, st =>
    if pick then
      let r := EmployeeIterator.next g st.1
      let o := runSchedule g rest (r.2, st.2)
      (r.1 :: o.1, o.2)
    else
      let r := EmployeeIterator.next g st.2
      let o := runSchedule g rest (st.1, r.2)
      (o.1, r.1 :: o.2)

def runAlone (g : Graph) : Nat → EmployeeIterator → List NextOut
  | 0, _ => []
  | n + 1, s =>
    (EmployeeIterator.next g s).1 ::
      runAlone g n (EmployeeIterator.next g s).2

/-! ## Step and drain lemmas -/
theorem EmployeeIterator.next_nil (g : Graph) (v : List String) :
    EmployeeIterator.next g ⟨[], v⟩ = (.stopIteration, ⟨[], v⟩) := rfl

/-- One `__next__` step on a non-empty pending list `l ++ [e]`. -/
theorem EmployeeIterator.next_concat (g : Graph) (l : List Nat) (e : Nat)
    (v : List String) :
    EmployeeIterator.next g ⟨l ++ [e], v⟩ =
      if (g e).name ∈ v then
        (.raised .iterationError "Cyclic loop detected", ⟨l, v⟩)
      else
        (.yielded e, ⟨l ++ (g e).direct_reports, (g e).name :: v⟩) := by
  simp [EmployeeIterator.next, List.getLast?_concat, List.dropLast_concat]

theorem genNext_nil (g : Graph) (v : List String) :
    GenState.next g ⟨[], v⟩ = (.stopIteration, ⟨[], v⟩) := rfl

/-- One generator resumption on a non-empty pending list `l ++ [e]`. -/
theorem genNext_concat (g : Graph) (l : List Nat) (e : Nat)
    (v : List String) :
    GenState.next g ⟨l ++ [e], v⟩ =
      if (g e).name ∈ v then
        (.raised .iterationError "Cyclic loop detected", ⟨l, v⟩)
      else
        (.yielded e, ⟨l ++ (g e).direct_reports, (g e).name :: v⟩) := by
  simp [GenState.next, List.getLast?_concat, List.dropLast_concat]

theorem iterDrain_stop (g : Graph) (fuel : Nat) (s s' : EmployeeIterator)
    (h : EmployeeIterator.next g s = (.stopIteration, s')) :
    iterDrain g (fuel + 1) s = ([], .finished) := by
  simp [iterDrain, h]

theorem iterDrain_raised (g : Graph) (fuel : Nat) (s s' : EmployeeIterator)
    (c : ExcClass) (m : String)
    (h : EmployeeIterator.next g s = (.raised c m, s')) :
    iterDrain g (fuel + 1) s = ([], .failed c m) := by
  simp [iterDrain, h]

theorem iterDrain_yield (g : Graph) (fuel : Nat) (s s' : EmployeeIterator)
    (e : Nat) (h : EmployeeIterator.next g s = (.yielded e, s')) :
    iterDrain g (fuel + 1) s =
      (e :: (iterDrain g fuel s').1, (iterDrain g fuel s').2) := by
  simp [iterDrain, h]

theorem genDrain_stop (g : Graph) (fuel : Nat) (s s' : GenState)
    (h : GenState.next g s = (.stopIteration, s')) :
    genDrain g (fuel + 1) s = ([], .finished) := by
  simp [genDrain, h]

theorem genDrain_raised (g : Graph) (fuel : Nat) (s s' : GenState)
    (c : ExcClass) (m : String)
    (h : GenState.next g s = (.raised c m, s')) :
    genDrain g (fuel + 1) s = ([], .failed c m) := by
  simp [genDrain, h]

theorem genDrain_yield (g : Graph) (fuel : Nat) (s s' : GenState)
    (e : Nat) (h : GenState.next g s = (.yielded e, s')) :
    genDrain g (fuel + 1) s =
      (e :: (genDrain g fuel s').1, (genDrain g fuel s').2) := by
  simp [genDrain, h]

/-- The generator step agrees with the cursor step, state for state: the
two bodies are the same algorithm. -/
theorem next_agree (g : Graph) (a : List Nat) (v : List String) :
    GenState.next g ⟨a, v⟩ =
      ((EmployeeIterator.next g ⟨a, v⟩).1,
       ⟨(EmployeeIterator.next g ⟨a, v⟩).2.employees_to_visit,
        (EmployeeIterator.next g ⟨a, v⟩).2.employees_visited⟩) := by
  unfold GenState.next EmployeeIterator.next
  rcases h : a.getLast? with _ | e
  · simp
  · simp only [h]
    split <;> simp

/-- Draining the cursor and draining the generator from matching states
produce the same output for every fuel. -/
theorem drain_agree (g : Graph) (fuel : Nat) :
    ∀ s : EmployeeIterator,
      genDrain g fuel ⟨s.employees_to_visit, s.employees_visited⟩ =
        iterDrain g fuel s := by
  induction fuel with
  | zero => intro s; rfl
  | succ fuel ih =>
    intro s
    rcases hn : EmployeeIterator.next g s with ⟨out, s'⟩
    have hg : GenState.next g ⟨s.employees_to_visit, s.employees_visited⟩ =
        (out, ⟨s'.employees_to_visit, s'.employees_visited⟩) := by
      rw [next_agree, hn]
    match out with
    | .stopIteration =>
      rw [iterDrain_stop g fuel s s' hn, genDrain_stop g fuel _ _ hg]
    | .raised c m =>
      rw [iterDrain_raised g fuel s s' c m hn, genDrain_raised g fuel _ _ c m hg]
    | .yielded e =>
      rw [iterDrain_yield g fuel s s' e hn, genDrain_yield g fuel _ _ e hg, ih s']

/-- Once a drain finishes or fails within its fuel, more fuel changes
nothing. -/
theorem iterDrain_stable (g : Graph) :
    ∀ fuel extra s out, (iterDrain g fuel s).2 = out → out ≠ .outOfFuel →
      iterDrain g (fuel + extra) s = iterDrain g fuel s := by
  intro fuel
  induction fuel with
  | zero => intro extra s out h hne; exact absurd h.symm (by simpa using hne)
  | succ fuel ih =>
    intro extra s out h hne
    rcases hn : EmployeeIterator.next g s with ⟨o, s'⟩
    match o with
    | .stopIteration =>
      rw [show fuel + 1 + extra = (fuel + extra) + 1 by omega,
        iterDrain_stop g (fuel + extra) s s' hn, iterDrain_stop g fuel s s' hn]
    | .raised c m =>
      rw [show fuel + 1 + extra = (fuel + extra) + 1 by omega,
        iterDrain_raised g (fuel + extra) s s' c m hn,
        iterDrain_raised g fuel s s' c m hn]
    | .yielded e =>
      rw [iterDrain_yield g fuel s s' e hn] at h
      rw [show fuel + 1 + extra = (fuel + extra) + 1 by omega,
        iterDrain_yield g (fuel + extra) s s' e hn,
        iterDrain_yield g fuel s s' e hn, ih extra s' out h hne]

theorem decodesF_nil_right (g : Graph) (F : List ETree)
    (h : decodesF g [] F = true) : F = [] := by
  cases F with
  | nil => rfl
  | cons t ts => simp [decodesF] at h

theorem namesF_append (g : List ETree) :
    ∀ h : List ETree, namesF (g ++ h) = namesF g ++ namesF h := by
  induction g with
  | nil => intro h; rfl
  | cons t ts ih => intro h; simp [namesF, ih h]

theorem sizeF_append (a : List ETree) :
    ∀ b : List ETree, sizeF (a ++ b) = sizeF a + sizeF b := by
  induction a with
  | nil => intro b; simp [sizeF]
  | cons t ts ih => intro b; simp [sizeF, ih b]; omega

/-- Decomposing a decode of a snoc stack: the forest splits the same way. -/
theorem decodesF_concat (g : Graph) :
    ∀ (is : List Nat) (i : Nat) (F : List ETree),
      decodesF g (is ++ [i]) F = true →
      ∃ ts t, F = ts ++ [t] ∧ decodesF g is ts = true ∧ decodes g i t = true := by
  intro is
  induction is with
  | nil =>
    intro i F h
    cases F with
    | nil => simp [decodesF] at h
    | cons t ts =>
      simp only [List.nil_append, decodesF, Bool.and_eq_true] at h
      have : ts = [] := decodesF_nil_right g ts h.2
      subst this
      exact ⟨[], t, rfl, rfl, h.1⟩
  | cons j js ih =>
    intro i F h
    cases F with
    | nil => simp [decodesF] at h
    | cons u us =>
      simp only [List.cons_append, decodesF, Bool.and_eq_true] at h
      obtain ⟨ts, t, rfl, hd, ht⟩ := ih i us h.2
      exact ⟨u :: ts, t, rfl, by simp [decodesF, h.1, hd], ht⟩

/-- Composing decodes of two stacks. -/
theorem decodesF_append (g : Graph) :
    ∀ (as : List Nat) (A : List ETree) (bs : List Nat) (B : List ETree),
      decodesF g as A = true → decodesF g bs B = true →
      decodesF g (as ++ bs) (A ++ B) = true := by
  intro as
  induction as with
  | nil =>
    intro A bs B hA hB
    have : A = [] := decodesF_nil_right g A hA
    subst this
    simpa using hB
  | cons j js ih =>
    intro A bs B hA hB
    cases A with
    | nil => simp [decodesF] at hA
    | cons u us =>
      simp only [decodesF, Bool.and_eq_true] at hA
      simpa [decodesF, hA.1] using ih us bs B hA.2 hB

/-- Main traversal lemma: from a stack that decodes a forest with fresh,
pairwise-distinct names, the cursor drains to exactly the forest's nodes,
one emission per node, and then finishes.  The emitted names are a
permutation of the forest's names. -/
theorem iterDrain_forest (g : Graph) :
    ∀ (n : Nat) (F : List ETree) (stack : List Nat) (visited : List String),
      sizeF F = n →
      decodesF g stack F = true →
      (namesF F).Nodup →
      (∀ x ∈ namesF F, x ∉ visited) →
      ∀ extra : Nat,
        ∃ emits : List Nat,
          iterDrain g (n + 1 + extra) ⟨stack, visited⟩ = (emits, .finished) ∧
          (emits.map fun i => (g i).name).Perm (namesF F) ∧
          emits.length = sizeF F := by
  intro n
  induction n using Nat.strong_induction_on with
  | _ n ih =>
    intro F stack visited hsz hdec hnd hfresh extra
    rcases List.eq_nil_or_concat stack with rfl | ⟨is, i, rfl⟩
    · have hF : F = [] := decodesF_nil_right g F hdec
      subst hF
      have hn0 : n = 0 := by simpa [sizeF] using hsz.symm
      subst hn0
      refine ⟨[], ?_, by simp [namesF], by simp [sizeF]⟩
      rw [show (0 : Nat) + 1 + extra = extra + 1 by omega,
        iterDrain_stop g extra _ _ (EmployeeIterator.next_nil g visited)]
    · simp only [List.concat_eq_append] at hdec ⊢
      obtain ⟨ts, t, rfl, hdts, hdt⟩ := decodesF_concat g is i F hdec
      cases t with
      | node nm cs =>
        simp only [decodes, Bool.and_eq_true, beq_iff_eq] at hdt
        obtain ⟨hname, hdcs⟩ := hdt
        have hnamesF : namesF (ts ++ [.node nm cs]) =
            namesF ts ++ nm :: namesF cs := by
          simp [namesF_append, namesF, ETree.names]
        have hnm_mem : nm ∈ namesF (ts ++ [.node nm cs]) := by
          rw [hnamesF]; simp
        have hnm_fresh : (g i).name ∉ visited := by
          rw [hname]; exact hfresh nm hnm_mem
        have hstep : EmployeeIterator.next g ⟨is ++ [i], visited⟩ =
            (.yielded i,
             ⟨is ++ (g i).direct_reports, (g i).name :: visited⟩) := by
          rw [EmployeeIterator.next_concat, if_neg hnm_fresh]
        -- the remaining forest after emitting the popped node
        have hdec' : decodesF g (is ++ (g i).direct_reports) (ts ++ cs) = true :=
          decodesF_append g is ts (g i).direct_reports cs hdts hdcs
        have hperm_names : (namesF (ts ++ [.node nm cs])).Perm
            (nm :: namesF (ts ++ cs)) := by
          rw [hnamesF, namesF_append]
          exact List.perm_middle
        have hnd' : (nm :: namesF (ts ++ cs)).Nodup := hperm_names.nodup hnd
        have hsz' : sizeF (ts ++ cs) = n - 1 := by
          have h1 : sizeF (ts ++ [ETree.node nm cs]) =
              sizeF ts + (1 + sizeF cs) := by
            simp [sizeF_append, sizeF, ETree.size]
          have h2 : sizeF (ts ++ cs) = sizeF ts + sizeF cs := sizeF_append ts cs
          omega
        have hnpos : 1 ≤ n := by
          have h1 : sizeF (ts ++ [ETree.node nm cs]) =
              sizeF ts + (1 + sizeF cs) := by
            simp [sizeF_append, sizeF, ETree.size]
          omega
        have hfresh' : ∀ x ∈ namesF (ts ++ cs), x ∉ (g i).name :: visited := by
          intro x hx
          have hxn : x ≠ nm := by
            intro hxe
            subst hxe
            exact (List.nodup_cons.mp hnd').1 hx
          have hxF : x ∈ namesF (ts ++ [.node nm cs]) :=
            hperm_names.symm.subset (List.mem_cons_of_mem nm hx)
          simp only [List.mem_cons]
          push_neg
          exact ⟨by rw [hname]; exact hxn, hfresh x hxF⟩
        obtain ⟨emits', hdrain', hperm', hlen'⟩ :=
          ih (n - 1) (by omega) (ts ++ cs) (is ++ (g i).direct_reports)
            ((g i).name :: visited) hsz' hdec' (List.nodup_cons.mp hnd').2
            hfresh' extra
        refine ⟨i :: emits', ?_, ?_, ?_⟩
        · rw [show n + 1 + extra = ((n - 1) + 1 + extra) + 1 by omega,
            iterDrain_yield g _ _ _ i hstep, hdrain']
        · have : ((i :: emits').map fun j => (g j).name) =
              (g i).name :: emits'.map fun j => (g j).name := rfl
          rw [this, hname]
          exact ((hperm'.cons nm).trans hperm_names.symm)
        · have h1 : sizeF (ts ++ [ETree.node nm cs]) =
              sizeF ts + (1 + sizeF cs) := by
            simp [sizeF_append, sizeF, ETree.size]
          have h2 : sizeF (ts ++ cs) = sizeF ts + sizeF cs := sizeF_append ts cs
          simp only [List.length_cons, hlen']
          omega

/-! ## Further step lemmas and inversion -/
/-- One `__next__` step when the pending list is the singleton `[e]`. -/
theorem EmployeeIterator.next_singleton (g : Graph) (e : Nat)
    (v : List String) :
    EmployeeIterator.next g ⟨[e], v⟩ =
      if (g e).name ∈ v then
        (.raised .iterationError "Cyclic loop detected", ⟨[], v⟩)
      else
        (.yielded e, ⟨(g e).direct_reports, (g e).name :: v⟩) := by
  simpa using EmployeeIterator.next_concat g [] e v

/-- A raised exception from `__next__` is always
`IterationError("Cyclic loop detected")`, and it is raised after the pop
but before the visited-set insertion: the new state has lost the popped
reference and gained nothing. -/
theorem EmployeeIterator.next_raised_inv (g : Graph)
    (s s' : EmployeeIterator) (c : ExcClass) (m : String)
    (h : EmployeeIterator.next g s = (.raised c m, s')) :
    c = .iterationError ∧ m = "Cyclic loop detected" ∧
    s'.employees_to_visit = s.employees_to_visit.dropLast ∧
    s'.employees_visited = s.employees_visited := by
  unfold EmployeeIterator.next at h
  rcases hL : s.employees_to_visit.getLast? with _ | e
  · rw [hL] at h
    simp at h
  · rw [hL] at h
    dsimp only at h
    split at h
    · obtain ⟨h1, h2⟩ := Prod.mk.injEq .. ▸ h
      cases h1
      exact ⟨rfl, rfl, by rw [← h2], by rw [← h2]⟩
    · simp at h

/-- Same inversion for the generator's step. -/
theorem genNext_raised_inv (g : Graph) (s s' : GenState)
    (c : ExcClass) (m : String)
    (h : GenState.next g s = (.raised c m, s')) :
    c = .iterationError ∧ m = "Cyclic loop detected" ∧
    s'.to_visit = s.to_visit.dropLast ∧ s'.visited = s.visited := by
  unfold GenState.next at h
  rcases hL : s.to_visit.getLast? with _ | e
  · rw [hL] at h
    simp at h
  · rw [hL] at h
    dsimp only at h
    split at h
    · obtain ⟨h1, h2⟩ := Prod.mk.injEq .. ▸ h
      cases h1
      exact ⟨rfl, rfl, by rw [← h2], by rw [← h2]⟩
    · simp at h

/-- Interleaving never mixes the two cursors' states: each side sees the
outcome sequence it would see running alone. -/
theorem runSchedule_eq_runAlone (g : Graph) :
    ∀ (sched : List Bool) (s1 s2 : EmployeeIterator),
      runSchedule g sched (s1, s2) =
        (runAlone g (sched.count true) s1,
         runAlone g (sched.count false) s2) := by
  intro sched
  induction sched with
  | nil => intro s1 s2; simp [runSchedule, runAlone]
  | cons pick rest ih =>
    intro s1 s2
    cases pick
    · simp [runSchedule, ih, List.count_cons, runAlone]
    · simp [runSchedule, ih, List.count_cons, runAlone]

/-! ## Prefix behaviour of a failing drain -/
/-- If draining fails within its fuel after emitting `n` elements, then the
first `n` resumptions deliver exactly those `n` elements with no error, and
resumption `n + 1` is the one that raises: the failure surfaces at the
consumer's pull of the offending element, never earlier. -/
theorem genDrain_failed_pulls (g : Graph) :
    ∀ (fuel : Nat) (s : GenState) (emits : List Nat) (c : ExcClass)
      (m : String),
      genDrain g fuel s = (emits, .failed c m) →
      genDrain g emits.length s = (emits, .outOfFuel) ∧
      genDrain g (emits.length + 1) s = (emits, .failed c m) := by
  intro fuel
  induction fuel with
  | zero =>
    intro s emits c m h
    simp [genDrain] at h
  | succ fuel ih =>
    intro s emits c m h
    rcases hn : GenState.next g s with ⟨o, s'⟩
    match o with
    | .stopIteration =>
      rw [genDrain_stop g fuel s s' hn] at h
      simp at h
    | .raised c' m' =>
      rw [genDrain_raised g fuel s s' c' m' hn] at h
      obtain ⟨h1, h2⟩ := Prod.mk.injEq .. ▸ h
      injection h2 with hc hm
      subst hc
      subst hm
      subst h1
      exact ⟨rfl, genDrain_raised g 0 s s' _ _ hn⟩
    | .yielded e =>
      rw [genDrain_yield g fuel s s' e hn] at h
      obtain ⟨h1, h2⟩ := Prod.mk.injEq .. ▸ h
      have hrec : genDrain g fuel s' = ((genDrain g fuel s').1, .failed c m) := by
        rw [← h2]
      obtain ⟨ihA, ihB⟩ := ih s' (genDrain g fuel s').1 c m hrec
      subst h1
      constructor
      · simp only [List.length_cons]
        rw [genDrain_yield g (genDrain g fuel s').1.length s s' e hn, ihA]
      · simp only [List.length_cons]
        rw [show (genDrain g fuel s').1.length + 1 + 1 =
            ((genDrain g fuel s').1.length + 1) + 1 from rfl,
          genDrain_yield g ((genDrain g fuel s').1.length + 1) s s' e hn, ihB]

/-! ## Claim theorems -/
/-- C1: for every heap and root (in particular every finite acyclic graph),
the full ordered sequence produced by the `EmployeeIterator` cursor,
drained by repeated `__next__`, is element-for-element equal to the
sequence produced by draining `employee_generator`, for every drain
length. -/
theorem claim_order_equivalence (g : Graph) (root fuel : Nat) :
    iterDrain g fuel (EmployeeIterator.init root) =
      genDrain g fuel (employee_generator root) :=
  (drain_agree g fuel (EmployeeIterator.init root)).symm

/-- C6: a root whose `direct_reports` list is empty yields exactly one
element (the root) and then ends normally, under both realizations. -/
theorem claim_empty_graph (g : Graph) (r fuel : Nat)
    (hr : (g r).direct_reports = []) (hf : 2 ≤ fuel) :
    iterDrain g fuel (EmployeeIterator.init r) = ([r], .finished) ∧
    genDrain g fuel (employee_generator r) = ([r], .finished) := by
  obtain ⟨extra, rfl⟩ : ∃ k, fuel = k + 2 := ⟨fuel - 2, by omega⟩
  have h1 : EmployeeIterator.next g (EmployeeIterator.init r) =
      (.yielded r, ⟨[], [(g r).name]⟩) := by
    rw [show EmployeeIterator.init r = (⟨[r], []⟩ : EmployeeIterator) from rfl,
      EmployeeIterator.next_singleton, if_neg (List.not_mem_nil _), hr]
  have hIter : iterDrain g (extra + 2) (EmployeeIterator.init r) =
      ([r], .finished) := by
    rw [show extra + 2 = (extra + 1) + 1 from rfl,
      iterDrain_yield g (extra + 1) _ _ r h1,
      iterDrain_stop g extra _ _ (EmployeeIterator.next_nil g [(g r).name])]
  exact ⟨hIter, (drain_agree g (extra + 2) (EmployeeIterator.init r)).trans hIter⟩

theorem claim_empty_graph_witness :
    iterDrain gMain 2 (EmployeeIterator.init 1) = ([1], .finished) ∧
    genDrain gMain 2 (employee_generator 1) = ([1], .finished) :=
  claim_empty_graph gMain 1 2 (by decide) (by decide)

/-- C7: any exception raised by either realization's step is the specific
kind `IterationError`, and it is caught both by a handler for
`IterationError` and by a handler for the broad builtin `RuntimeError`. -/
theorem claim_error_hierarchy :
    (∀ (g : Graph) (s s' : EmployeeIterator) (c : ExcClass) (m : String),
      EmployeeIterator.next g s = (.raised c m, s') →
      catches .iterationError c = true ∧ catches .runtimeError c = true) ∧
    (∀ (g : Graph) (s s' : GenState) (c : ExcClass) (m : String),
      GenState.next g s = (.raised c m, s') →
      catches .iterationError c = true ∧ catches .runtimeError c = true) := by
  constructor
  · intro g s s' c m h
    obtain ⟨rfl, -, -, -⟩ := EmployeeIterator.next_raised_inv g s s' c m h
    exact ⟨by decide, by decide⟩
  · intro g s s' c m h
    obtain ⟨rfl, -, -, -⟩ := genNext_raised_inv g s s' c m h
    exact ⟨by decide, by decide⟩

theorem claim_error_hierarchy_witness :
    catches .iterationError .iterationError = true ∧
    catches .runtimeError .iterationError = true :=
  claim_error_hierarchy.1 gHacker ⟨[0], ["Unknown"]⟩ ⟨[], ["Unknown"]⟩
    .iterationError "Cyclic loop detected" (by decide)

/-- C9: two cursors over the same root, advanced under an arbitrary
interleaving, each observe exactly the outcome sequence they would observe
advancing alone: advancing one cursor leaves the other unchanged. -/
theorem claim_cursor_independence (g : Graph) (r : Nat) (sched : List Bool) :
    runSchedule g sched (EmployeeIterator.init r, EmployeeIterator.init r) =
      (runAlone g (sched.count true) (EmployeeIterator.init r),
       runAlone g (sched.count false) (EmployeeIterator.init r)) :=
  runSchedule_eq_runAlone g sched _ _

/-- C10: when `__next__` raises the cycle error, the popped node has left
the pending stack and its name was NOT added to the visited set; the
cursor is not terminally poisoned: on `gResume` the pull after the failure
yields a further node. -/
theorem claim_failed_cursor_resumes :
    (∀ (g : Graph) (s s' : EmployeeIterator) (c : ExcClass) (m : String),
      EmployeeIterator.next g s = (.raised c m, s') →
      s'.employees_to_visit = s.employees_to_visit.dropLast ∧
      s'.employees_visited = s.employees_visited) ∧
    (EmployeeIterator.next gResume (EmployeeIterator.init 0) =
        (.yielded 0, ⟨[1, 0], ["R"]⟩) ∧
      EmployeeIterator.next gResume ⟨[1, 0], ["R"]⟩ =
        (.raised .iterationError "Cyclic loop detected", ⟨[1], ["R"]⟩) ∧
      EmployeeIterator.next gResume ⟨[1], ["R"]⟩ =
        (.yielded 1, ⟨[], ["A", "R"]⟩)) := by
  constructor
  · intro g s s' c m h
    obtain ⟨-, -, h3, h4⟩ := EmployeeIterator.next_raised_inv g s s' c m h
    exact ⟨h3, h4⟩
  · exact ⟨by decide, by decide, by decide⟩

theorem claim_failed_cursor_resumes_witness :
    (⟨[1], ["R"]⟩ : EmployeeIterator).employees_to_visit =
        (⟨[1, 0], ["R"]⟩ : EmployeeIterator).employees_to_visit.dropLast ∧
    (⟨[1], ["R"]⟩ : EmployeeIterator).employees_visited =
        (⟨[1, 0], ["R"]⟩ : EmployeeIterator).employees_visited :=
  claim_failed_cursor_resumes.1 gResume ⟨[1, 0], ["R"]⟩ ⟨[1], ["R"]⟩
    .iterationError "Cyclic loop detected" (by decide)

/-- C2 counterexample: `gDiamond` is a finite acyclic graph with 4
reachable nodes, but because `C` is reachable through two shared
sub-references, the traversal raises `IterationError` at the second pop of
`C` instead of ending normally, under both realizations. -/
theorem claim_completeness_counterexample :
    (gDiamond 0).direct_reports = [1, 2] ∧
    (gDiamond 1).direct_reports = [3] ∧
    (gDiamond 2).direct_reports = [3] ∧
    (gDiamond 3).direct_reports = [] ∧
    iterDrain gDiamond 9 (EmployeeIterator.init 0) =
      ([0, 2, 3, 1], .failed .iterationError "Cyclic loop detected") ∧
    genDrain gDiamond 9 (employee_generator 0) =
      ([0, 2, 3, 1], .failed .iterationError "Cyclic loop detected") := by
  decide

/-- C2 (amended): when the part of the heap reachable from the root is a
tree (each node referenced along exactly one path, shape `T`) with
pairwise-distinct names, both realizations emit exactly `T.size` elements,
no element twice, and then end normally; the emitted names are exactly the
tree's names. -/
theorem claim_completeness_tree (g : Graph) (r : Nat) (T : ETree)
    (fuel : Nat) (hdec : decodes g r T = true)
    (hnd : (ETree.names T).Nodup) (hf : T.size + 1 ≤ fuel) :
    ∃ emits : List Nat,
      iterDrain g fuel (EmployeeIterator.init r) = (emits, .finished) ∧
      genDrain g fuel (employee_generator r) = (emits, .finished) ∧
      emits.length = T.size ∧ emits.Nodup ∧
      (emits.map fun i => (g i).name).Perm (ETree.names T) := by
  obtain ⟨extra, hfe⟩ : ∃ k, fuel = T.size + 1 + k :=
    ⟨fuel - (T.size + 1), by omega⟩
  have hszF : sizeF [T] = T.size := by simp [sizeF]
  have hdecF : decodesF g [r] [T] = true := by simp [decodesF, hdec]
  have hndF : (namesF [T]).Nodup := by simpa [namesF] using hnd
  have hnames : namesF [T] = ETree.names T := by simp [namesF]
  have hfresh : ∀ x ∈ namesF [T], x ∉ ([] : List String) := fun x _ =>
    List.not_mem_nil x
  obtain ⟨emits, hdrain, hperm, hlen⟩ :=
    iterDrain_forest g (sizeF [T]) [T] [r] [] rfl hdecF hndF hfresh extra
  rw [hszF] at hdrain hlen
  have hIter : iterDrain g fuel (EmployeeIterator.init r) =
      (emits, .finished) := by
    rw [hfe]
    exact hdrain
  have hmapnd : (emits.map fun i => (g i).name).Nodup :=
    (hperm.symm.nodup) hndF
  refine ⟨emits, hIter,
    (drain_agree g fuel (EmployeeIterator.init r)).trans hIter, hlen,
    List.Nodup.of_map _ hmapnd, ?_⟩
  rw [← hnames]
  exact hperm

theorem claim_completeness_tree_witness :
    ∃ emits : List Nat,
      iterDrain gMain 4 (EmployeeIterator.init 0) = (emits, .finished) ∧
      genDrain gMain 4 (employee_generator 0) = (emits, .finished) ∧
      emits.length = tMain.size ∧ emits.Nodup ∧
      (emits.map fun i => (gMain i).name).Perm (ETree.names tMain) :=
  claim_completeness_tree gMain 0 tMain 4 (by decide) (by decide) (by decide)

/-- C3 counterexample: `gDupName`'s root has two distinct childless
reports that share one name, so the traversal emits `[R, B]` and then
fails instead of emitting `[R, B, A]` and finishing. -/
theorem claim_dfs_order_counterexample :
    (gDupName 0).direct_reports = [1, 2] ∧
    (gDupName 1).direct_reports = [] ∧
    (gDupName 2).direct_reports = [] ∧
    (1 : Nat) ≠ 2 ∧
    iterDrain gDupName 9 (EmployeeIterator.init 0) =
      ([0, 2], .failed .iterationError "Cyclic loop detected") ∧
    genDrain gDupName 9 (employee_generator 0) =
      ([0, 2], .failed .iterationError "Cyclic loop detected") := by
  decide

/-- C3 (amended): for a root `r` with reports `[a, b]`, both childless,
and the three names pairwise distinct, both realizations emit exactly
`[r, b, a]` and then end normally: reports are pushed in order and
visited in reverse order. -/
theorem claim_dfs_order (g : Graph) (r a b fuel : Nat)
    (hr : (g r).direct_reports = [a, b])
    (ha : (g a).direct_reports = [])
    (hb : (g b).direct_reports = [])
    (hab : (g a).name ≠ (g b).name)
    (har : (g a).name ≠ (g r).name)
    (hbr : (g b).name ≠ (g r).name)
    (hf : 4 ≤ fuel) :
    iterDrain g fuel (EmployeeIterator.init r) = ([r, b, a], .finished) ∧
    genDrain g fuel (employee_generator r) = ([r, b, a], .finished) := by
  obtain ⟨extra, rfl⟩ : ∃ k, fuel = k + 4 := ⟨fuel - 4, by omega⟩
  have h1 : EmployeeIterator.next g (EmployeeIterator.init r) =
      (.yielded r, ⟨[a, b], [(g r).name]⟩) := by
    rw [show EmployeeIterator.init r = (⟨[r], []⟩ : EmployeeIterator) from rfl,
      EmployeeIterator.next_singleton, if_neg (List.not_mem_nil _), hr]
  have h2 : EmployeeIterator.next g ⟨[a, b], [(g r).name]⟩ =
      (.yielded b, ⟨[a], [(g b).name, (g r).name]⟩) := by
    have hmem : (g b).name ∉ [(g r).name] := by simp [hbr]
    rw [show ([a, b] : List Nat) = [a] ++ [b] from rfl,
      EmployeeIterator.next_concat, if_neg hmem, hb, List.append_nil]
  have h3 : EmployeeIterator.next g ⟨[a], [(g b).name, (g r).name]⟩ =
      (.yielded a, ⟨[], [(g a).name, (g b).name, (g r).name]⟩) := by
    have hmem : (g a).name ∉ [(g b).name, (g r).name] := by
      simp [hab, har]
    rw [EmployeeIterator.next_singleton, if_neg hmem, ha]
  have hIter : iterDrain g (extra + 4) (EmployeeIterator.init r) =
      ([r, b, a], .finished) := by
    rw [show extra + 4 = (extra + 3) + 1 from rfl,
      iterDrain_yield g (extra + 3) _ _ r h1,
      show extra + 3 = (extra + 2) + 1 from rfl,
      iterDrain_yield g (extra + 2) _ _ b h2,
      show extra + 2 = (extra + 1) + 1 from rfl,
      iterDrain_yield g (extra + 1) _ _ a h3,
      iterDrain_stop g extra _ _ (EmployeeIterator.next_nil g _)]
  exact ⟨hIter,
    (drain_agree g (extra + 4) (EmployeeIterator.init r)).trans hIter⟩

theorem claim_dfs_order_witness :
    iterDrain gMain 4 (EmployeeIterator.init 0) = ([0, 2, 1], .finished) ∧
    genDrain gMain 4 (employee_generator 0) = ([0, 2, 1], .finished) :=
  claim_dfs_order gMain 0 1 2 4 (by decide) (by decide) (by decide)
    (by decide) (by decide) (by decide) (by decide)

/-- C4 counterexample: node `X` of `gXY` has itself in its reports list
(`[X, Y]`), yet the pull after `X` is emitted does not fail — it yields
`Y`; the failure only comes one pull later. -/
theorem claim_self_loop_counterexample :
    (0 : Nat) ∈ (gXY 0).direct_reports ∧
    EmployeeIterator.next gXY (EmployeeIterator.init 0) =
      (.yielded 0, ⟨[0, 1], ["X"]⟩) ∧
    EmployeeIterator.next gXY ⟨[0, 1], ["X"]⟩ =
      (.yielded 1, ⟨[0], ["Y", "X"]⟩) ∧
    iterDrain gXY 9 (EmployeeIterator.init 0) =
      ([0, 1], .failed .iterationError "Cyclic loop detected") ∧
    genDrain gXY 9 (employee_generator 0) =
      ([0, 1], .failed .iterationError "Cyclic loop detected") := by
  decide

/-- C4 (amended): when `x` is the LAST entry of its own reports list, both
realizations emit `x` exactly once and the very next pull raises
`IterationError("Cyclic loop detected")`; the total drain is `[x]` then
failure, for any sufficient fuel, so `x` is never emitted twice and the
traversal never diverges. -/
theorem claim_self_loop (g : Graph) (x : Nat) (ys : List Nat) (fuel : Nat)
    (hx : (g x).direct_reports = ys ++ [x]) (hf : 2 ≤ fuel) :
    iterDrain g fuel (EmployeeIterator.init x) =
      ([x], .failed .iterationError "Cyclic loop detected") ∧
    genDrain g fuel (employee_generator x) =
      ([x], .failed .iterationError "Cyclic loop detected") := by
  obtain ⟨extra, rfl⟩ : ∃ k, fuel = k + 2 := ⟨fuel - 2, by omega⟩
  have h1 : EmployeeIterator.next g (EmployeeIterator.init x) =
      (.yielded x, ⟨ys ++ [x], [(g x).name]⟩) := by
    rw [show EmployeeIterator.init x = (⟨[x], []⟩ : EmployeeIterator) from rfl,
      EmployeeIterator.next_singleton, if_neg (List.not_mem_nil _), hx]
  have h2 : EmployeeIterator.next g ⟨ys ++ [x], [(g x).name]⟩ =
      (.raised .iterationError "Cyclic loop detected",
       ⟨ys, [(g x).name]⟩) := by
    rw [EmployeeIterator.next_concat, if_pos (List.mem_singleton_self _)]
  have hIter : iterDrain g (extra + 2) (EmployeeIterator.init x) =
      ([x], .failed .iterationError "Cyclic loop detected") := by
    rw [show extra + 2 = (extra + 1) + 1 from rfl,
      iterDrain_yield g (extra + 1) _ _ x h1,
      iterDrain_raised g extra _ _ .iterationError "Cyclic loop detected" h2]
  exact ⟨hIter,
    (drain_agree g (extra + 2) (EmployeeIterator.init x)).trans hIter⟩

theorem claim_self_loop_witness :
    iterDrain gHacker 2 (EmployeeIterator.init 0) =
      ([0], .failed .iterationError "Cyclic loop detected") ∧
    genDrain gHacker 2 (employee_generator 0) =
      ([0], .failed .iterationError "Cyclic loop detected") :=
  claim_self_loop gHacker 0 [] 2 (by decide) (by decide)

/-- C5 counterexample: a two-node cycle `R → C → R` whose two distinct
nodes share one name fails already when `C` is popped the first time:
only `R` is emitted, not `R` then `C`. -/
theorem claim_indirect_cycle_counterexample :
    (gNN 0).direct_reports = [1] ∧
    (gNN 1).direct_reports = [0] ∧
    (0 : Nat) ≠ 1 ∧
    iterDrain gNN 9 (EmployeeIterator.init 0) =
      ([0], .failed .iterationError "Cyclic loop detected") ∧
    genDrain gNN 9 (employee_generator 0) =
      ([0], .failed .iterationError "Cyclic loop detected") := by
  decide

/-- C5 (amended): for a cycle `r → c → r` with distinct names, the first
pull yields `r`, the second yields `c` — no error is raised at the moment
`r` is pushed again; detection happens at pop time — and the third pull,
which pops `r` a second time, raises the cycle error.  Draining gives
`[r, c]` then failure under both realizations. -/
theorem claim_indirect_cycle (g : Graph) (r c : Nat)
    (hr : (g r).direct_reports = [c]) (hc : (g c).direct_reports = [r])
    (hn : (g c).name ≠ (g r).name) :
    EmployeeIterator.next g (EmployeeIterator.init r) =
      (.yielded r, ⟨[c], [(g r).name]⟩) ∧
    EmployeeIterator.next g ⟨[c], [(g r).name]⟩ =
      (.yielded c, ⟨[r], [(g c).name, (g r).name]⟩) ∧
    EmployeeIterator.next g ⟨[r], [(g c).name, (g r).name]⟩ =
      (.raised .iterationError "Cyclic loop detected",
       ⟨[], [(g c).name, (g r).name]⟩) ∧
    ∀ fuel, 3 ≤ fuel →
      iterDrain g fuel (EmployeeIterator.init r) =
        ([r, c], .failed .iterationError "Cyclic loop detected") ∧
      genDrain g fuel (employee_generator r) =
        ([r, c], .failed .iterationError "Cyclic loop detected") := by
  have h1 : EmployeeIterator.next g (EmployeeIterator.init r) =
      (.yielded r, ⟨[c], [(g r).name]⟩) := by
    rw [show EmployeeIterator.init r = (⟨[r], []⟩ : EmployeeIterator) from rfl,
      EmployeeIterator.next_singleton, if_neg (List.not_mem_nil _), hr]
  have h2 : EmployeeIterator.next g ⟨[c], [(g r).name]⟩ =
      (.yielded c, ⟨[r], [(g c).name, (g r).name]⟩) := by
    have hmem : (g c).name ∉ [(g r).name] := by simp [hn]
    rw [EmployeeIterator.next_singleton, if_neg hmem, hc]
  have h3 : EmployeeIterator.next g ⟨[r], [(g c).name, (g r).name]⟩ =
      (.raised .iterationError "Cyclic loop detected",
       ⟨[], [(g c).name, (g r).name]⟩) := by
    have hmem : (g r).name ∈ [(g c).name, (g r).name] := by simp
    rw [EmployeeIterator.next_singleton, if_pos hmem]
  refine ⟨h1, h2, h3, ?_⟩
  intro fuel hf
  obtain ⟨extra, rfl⟩ : ∃ k, fuel = k + 3 := ⟨fuel - 3, by omega⟩
  have hIter : iterDrain g (extra + 3) (EmployeeIterator.init r) =
      ([r, c], .failed .iterationError "Cyclic loop detected") := by
    rw [show extra + 3 = (extra + 2) + 1 from rfl,
      iterDrain_yield g (extra + 2) _ _ r h1,
      show extra + 2 = (extra + 1) + 1 from rfl,
      iterDrain_yield g (extra + 1) _ _ c h2,
      iterDrain_raised g extra _ _ .iterationError "Cyclic loop detected" h3]
  exact ⟨hIter,
    (drain_agree g (extra + 3) (EmployeeIterator.init r)).trans hIter⟩

theorem claim_indirect_cycle_witness :
    EmployeeIterator.next gTwoCycle (EmployeeIterator.init 0) =
      (.yielded 0, ⟨[1], [(gTwoCycle 0).name]⟩) ∧
    EmployeeIterator.next gTwoCycle ⟨[1], [(gTwoCycle 0).name]⟩ =
      (.yielded 1, ⟨[0], [(gTwoCycle 1).name, (gTwoCycle 0).name]⟩) ∧
    EmployeeIterator.next gTwoCycle
        ⟨[0], [(gTwoCycle 1).name, (gTwoCycle 0).name]⟩ =
      (.raised .iterationError "Cyclic loop detected",
       ⟨[], [(gTwoCycle 1).name, (gTwoCycle 0).name]⟩) ∧
    ∀ fuel, 3 ≤ fuel →
      iterDrain gTwoCycle fuel (EmployeeIterator.init 0) =
        ([0, 1], .failed .iterationError "Cyclic loop detected") ∧
      genDrain gTwoCycle fuel (employee_generator 0) =
        ([0, 1], .failed .iterationError "Cyclic loop detected") :=
  claim_indirect_cycle gTwoCycle 0 1 (by decide) (by decide) (by decide)

/-- C8: constructing the lazy sequence is pure state creation (it does not
touch the graph and cannot raise), and whenever draining it fails after
emitting `n` elements, the first `n` pulls each delivered an element with
no error and it is exactly pull `n + 1` that raises: the error surfaces
mid-consumption, never at construction. -/
theorem claim_lazy_failure (g : Graph) (r fuel : Nat) (emits : List Nat)
    (c : ExcClass) (m : String)
    (h : genDrain g fuel (employee_generator r) = (emits, .failed c m)) :
    employee_generator r = ⟨[r], []⟩ ∧
    genDrain g emits.length (employee_generator r) = (emits, .outOfFuel) ∧
    genDrain g (emits.length + 1) (employee_generator r) =
      (emits, .failed c m) :=
  ⟨rfl, genDrain_failed_pulls g fuel (employee_generator r) emits c m h⟩

theorem claim_lazy_failure_witness :
    employee_generator 0 = ⟨[0], []⟩ ∧
    genDrain gHacker 1 (employee_generator 0) = ([0], .outOfFuel) ∧
    genDrain gHacker 2 (employee_generator 0) =
      ([0], .failed .iterationError "Cyclic loop detected") :=
  claim_lazy_failure gHacker 0 5 [0] .iterationError "Cyclic loop detected"
    (by decide)
